import Mathlib

/-!
Verification development for the hyperfox interception proxy
(`proxy/main.go` and the `save` helper package).

The Go code is shallowly embedded: pure string manipulation becomes pure
Lean functions on `String`/`List Char`; the imperative interception
pipeline becomes a function producing the ordered trace of observable
events (hook invocations, header commit, per-destination body writes,
closes), together with a flag recording whether the code path ends in a
runtime panic.  Machine-specific collaborators (the MIME extension
lookup, the transport, sink write failures, `os.Create` success) are
passed in as explicit function parameters, exactly as wide as their Go
interfaces.
-/

namespace Hyperfox

/-- Go constant from main.go line 51: the platform path separator
(`os.PathSeparator`), which is a forward slash on the target platform. -/
def PS : String := "/"

/-- Package variable from main.go line 48, at its default value. -/
def ArchiveDir : String := "archive"

/-- Package variable from main.go line 49, at its default value. -/
def ClientDir : String := "client"

/-! ## The `http.Header` model

Go's `http.Header` is a `map[string][]string`.  It is modelled as an
association list of key / ordered-value-list pairs; the map invariant
(each key occurs at most once) appears as a `Nodup` hypothesis where a
theorem needs it. -/

/-- Value list stored under key `k`, `[]` when the key is absent
(the Go map lookup `h[k]`). -/
def headerValues : List (String × List String) → String → List String
  | [], _ => []
  | p :: rest, k => if p.1 = k then p.2 else headerValues rest k

/-- Go `Header.Get`: first stored value of the key, `""` when the key is
absent or its list is empty. -/
def headerGet (h : List (String × List String)) (k : String) : String :=
  match headerValues h k with
  | [] => ""
  | v :: _ => v

/-- Go `Header.Del`: remove the key. -/
def headerDel : List (String × List String) → String → List (String × List String)
  | [], _ => []
  | p :: rest, k => if p.1 = k then headerDel rest k else p :: headerDel rest k

/-- Go `Header.Add`: append one value to the key's list, creating the key
if needed. -/
def headerAdd : List (String × List String) → String → String → List (String × List String)
  | [], k, v => [(k, [v])]
  | p :: rest, k, v =>
    if p.1 = k then (p.1, p.2 ++ [v]) :: rest else p :: headerAdd rest k v

/-- First loop of `copyHeader` (main.go lines 107-109): delete every key
of `dst` from `dst`. -/
def delAll (dst : List (String × List String)) : List (String × List String) :=
  (dst.map Prod.fst).foldl (fun acc k => headerDel acc k) dst

/-- Second loop of `copyHeader` (main.go lines 110-114): add every value
of every key of `src`, in order. -/
def addAll (acc src : List (String × List String)) : List (String × List String) :=
  src.foldl (fun a p => p.2.foldl (fun b v => headerAdd b p.1 v) a) acc

/-- The header-copy utility `copyHeader` from main.go lines 106-115. -/
def copyHeader (dst src : List (String × List String)) : List (String × List String) :=
  addAll (delAll dst) src

/-! ## String helpers used by the path resolvers -/

/-- Go `strings.Trim(s, "/")`: strip leading and trailing slashes. -/
def trimSlashes (s : String) : String :=
  String.mk (((s.data.dropWhile (fun c => c == '/')).reverse.dropWhile
    (fun c => c == '/')).reverse)

/-- Scan of `path.Ext`, walking the string from its end (the input list is
the reversed string, `acc` the characters already passed): stop at a
slash with no extension, return the suffix from the last dot otherwise. -/
def extAux : List Char → List Char → Option (List Char)
  | [], _ => none
  | c :: rest, acc =>
    if c = '/' then none
    else if c = '.' then some (c :: acc)
    else extAux rest (c :: acc)

/-- Go `path.Ext`: the suffix beginning at the final dot of the final
slash-separated element, `""` when there is none. -/
def pathExt (s : String) : String :=
  match extAux s.data.reverse [] with
  | none => ""
  | some l => String.mk l

/-- Go `strings.SplitN(s, ":", 2)[0]`: everything before the first colon
(the whole string when there is no colon). -/
def beforeColon (s : String) : String :=
  String.mk (s.data.takeWhile (fun c => c != ':'))

/-! ## Requests, responses and the path resolvers -/

/-- The fields of `url.URL` that main.go reads or writes. -/
structure URL where
  scheme : String
  host : String
  path : String
deriving DecidableEq

/-- The fields of `http.Request` that main.go reads or writes.  The body
is an abstract chunk list. -/
structure Request where
  method : String
  url : URL
  proto : String
  protoMajor : Nat
  protoMinor : Nat
  header : List (String × List String)
  body : List Nat
  close : Bool
  host : String
  remoteAddr : String
deriving DecidableEq

/-- The fields of `http.Response` that the path resolvers read
(`res.Header` and `res.Request`). -/
structure Response where
  status : Nat
  header : List (String × List String)
  request : Request
deriving DecidableEq

/-- Lines 157-161 of main.go, shared by `ArchiveFile` and `ClientFile`:
the trimmed URL path, with `"index"` substituted when it is empty. -/
def stemOf (res : Response) : String :=
  let file := trimSlashes res.request.url.path
  if file = "" then "index" else file

/-- The archive path resolver `ArchiveFile` (main.go lines 153-174).
The MIME lookup collaborator `mimext.Ext` is an explicit parameter: per
the interface contract it is a pure total function that may return the
empty string. -/
def ArchiveFile (mimeExt : String → String) (res : Response) : String :=
  let contentType := headerGet res.header "Content-Type"
  let file0 := stemOf res
  let file1 :=
    if pathExt file0 = "" then file0 ++ "." ++ mimeExt contentType else file0
  let file2 :=
    if headerGet res.header "Content-Encoding" = "gzip" then file1 ++ ".gz" else file1
  ArchiveDir ++ PS ++ res.request.url.host ++ PS ++ file2

/-- A wall-clock instant as decomposed by Go's
`t.Year()/Month()/Day()/Hour()/Minute()/Second()/Nanosecond()`. -/
structure Tm where
  year : Nat
  month : Nat
  day : Nat
  hour : Nat
  minute : Nat
  second : Nat
  nsec : Nat
deriving DecidableEq

/-- Ranges the Go accessors guarantee for any real instant (years up to
9999 so that the `%04d` field keeps its fixed width). -/
def Tm.Valid (t : Tm) : Prop :=
  t.year < 10000 ∧ 1 ≤ t.month ∧ t.month ≤ 12 ∧ 1 ≤ t.day ∧ t.day ≤ 31 ∧
    t.hour < 24 ∧ t.minute < 60 ∧ t.second < 60 ∧ t.nsec < 1000000000

instance (t : Tm) : Decidable t.Valid := by
  unfold Tm.Valid; infer_instance

/-- Chronological (lexicographic componentwise) order on instants. -/
def chronoLt (t1 t2 : Tm) : Prop :=
  t1.year < t2.year ∨ (t1.year = t2.year ∧
  (t1.month < t2.month ∨ (t1.month = t2.month ∧
  (t1.day < t2.day ∨ (t1.day = t2.day ∧
  (t1.hour < t2.hour ∨ (t1.hour = t2.hour ∧
  (t1.minute < t2.minute ∨ (t1.minute = t2.minute ∧
  (t1.second < t2.second ∨ (t1.second = t2.second ∧
  t1.nsec < t2.nsec)))))))))))

instance (t1 t2 : Tm) : Decidable (chronoLt t1 t2) := by
  unfold chronoLt; infer_instance

/-- The decimal digit characters used by `fmt`'s `%d` verbs. -/
def digitCh (d : Nat) : Char :=
  match d with
  | 0 => '0' | 1 => '1' | 2 => '2' | 3 => '3' | 4 => '4'
  | 5 => '5' | 6 => '6' | 7 => '7' | 8 => '8' | _ => '9'

/-- Fixed-width zero-padded decimal rendering: the `%0wd` verb for a
value below `10 ^ w` (most significant digit first). -/
def pad : Nat → Nat → List Char
  | 0, _ => []
  | w + 1, n => pad w (n / 10) ++ [digitCh (n % 10)]

/-- The characters of `now()` (main.go lines 176-189): the
`"%04d%02d%02d-%02d%02d%02d-%09d"` rendering of the instant followed by
the `".bin"` suffix. -/
def tsList (t : Tm) : List Char :=
  pad 4 t.year ++ (pad 2 t.month ++ (pad 2 t.day ++ ('-' ::
    (pad 2 t.hour ++ (pad 2 t.minute ++ (pad 2 t.second ++ ('-' ::
      (pad 9 t.nsec ++ ['.', 'b', 'i', 'n']))))))))

/-- The leaf file name produced by `now()` for the instant `t`. -/
def nowStr (t : Tm) : String := String.mk (tsList t)

/-- The client path resolver `ClientFile` (main.go lines 195-208), with
the current instant passed explicitly in place of `time.Now()`. -/
def ClientFile (res : Response) (t : Tm) : String :=
  ClientDir ++ PS ++ beforeColon res.request.remoteAddr ++ PS ++
    res.request.url.host ++ PS ++ stemOf res ++ PS ++ nowStr t

/-! ## The proxy engine (`ServeHTTP`, main.go lines 123-147) -/

/-- Construction of the outbound request, main.go lines 125-138: the
shallow copy of the inbound request with protocol version forced to
HTTP/1.1, `Close` cleared, the URL rewritten from the inbound `Host`,
and a `Host` header value added. -/
def outboundRequest (req : Request) : Request :=
  { req with
    proto := "HTTP/1.1"
    protoMajor := 1
    protoMinor := 1
    close := false
    url := { req.url with scheme := "http", host := req.host }
    header := headerAdd req.header "Host" req.host }

/-- Outcome of one `ServeHTTP` call: either the handler panicked, or the
upstream response was handed to `intercept` together with the outbound
request that produced it. -/
inductive ServeResult where
  | panicked
  | intercepted (out : Request) (res : Response)
deriving DecidableEq

/-- The request handler `ServeHTTP` (main.go lines 123-147).  The
transport (`http.DefaultTransport.RoundTrip`) is an explicit parameter;
on a transport error the code executes `panic(err)`. -/
def ServeHTTP (transport : Request → Except String Response) (req : Request) :
    ServeResult :=
  let out := outboundRequest req
  match transport out with
  | Except.error _ => ServeResult.panicked
  | Except.ok res => ServeResult.intercepted out res

/-! ## The interceptor (`intercept`, main.go lines 218-263)

The interceptor is modelled as the ordered trace of its observable
calls.  Hooks are identified by position; a writer either returns a sink
or `none` (a nil `io.WriteCloser`); every write destination carries a
failure oracle saying on which chunk indices its `Write` errors, which
is all `io.MultiWriter`/`io.Copy` observe of it. -/

/-- A sink returned by a Writer: its failure oracle (chunk index on
which a write to it errors). -/
structure SinkB where
  failAt : Nat → Bool

/-- One exchange as the interceptor sees it: the registered hook lists
(directors and loggers by count, writers by returned sink), the client
response writer's failure oracle, and the upstream body — `none` for a
nil `res.Body`, otherwise the number of chunks `io.Copy` reads. -/
structure InterceptIn where
  nDirectors : Nat
  writers : List (Option SinkB)
  nLoggers : Nat
  clientFailAt : Nat → Bool
  body : Option Nat

/-- Observable events of one intercepted exchange.  Write destinations
are numbered as `io.MultiWriter` receives them: `0` is the client
response writer, `i + 1` the `i`-th collected sink. -/
inductive Ev where
  | director (i : Nat)
  | commit
  | writerCall (i : Nat)
  | loggerCall (i : Nat)
  | write (dest : Nat) (chunk : Nat)
  | closeBody
  | closeSink (i : Nat)
deriving DecidableEq

/-- One `io.MultiWriter` write of chunk `j` to the destinations `fs`
(numbered from `k0`): destinations are written in order and the first
error stops the loop; the flag is `true` when every write succeeded. -/
def wcGo (j k0 : Nat) : List (Nat → Bool) → List Ev × Bool
  | [] => ([], true)
  | f :: fs =>
    if f j then ([], false)
    else
      let r := wcGo j (k0 + 1) fs
      (Ev.write k0 j :: r.1, r.2)

/-- The `io.Copy` loop over the fan-out writer: chunks are numbered from
`j`, `r` remain; a failed multi-write ends the copy. -/
def copyLoop (dests : List (Nat → Bool)) : Nat → Nat → List Ev
  | _, 0 => []
  | j, r + 1 =>
    let w := wcGo j 0 dests
    if w.2 then w.1 ++ copyLoop dests (j + 1) r else w.1

/-- The destination list handed to `io.MultiWriter` (main.go lines
249-252): the client response writer first, then every non-nil sink in
writer registration order. -/
def destsOf (inp : InterceptIn) : List (Nat → Bool) :=
  inp.clientFailAt :: (inp.writers.filterMap id).map SinkB.failAt

/-- The interceptor `intercept` (main.go lines 218-263) as a trace: the
director loop, the header/status commit (`copyHeader` + `WriteHeader`),
the writer loop collecting non-nil sinks, the logger loop, then — only
for a non-nil body — the fan-out copy; finally `res.Body.Close()`
followed by one close per collected sink.  On a nil body the unguarded
`res.Body.Close()` dereferences a nil interface: the second component
records that the interceptor panics there, before any sink is closed. -/
def intercept (inp : InterceptIn) : List Ev × Bool :=
  let dEvs := (List.range inp.nDirectors).map Ev.director
  let wEvs := (List.range inp.writers.length).map Ev.writerCall
  let lEvs := (List.range inp.nLoggers).map Ev.loggerCall
  let nSinks := (inp.writers.filterMap id).length
  match inp.body with
  | none =>
    (dEvs ++ [Ev.commit] ++ wEvs ++ lEvs, true)
  | some n =>
    (dEvs ++ [Ev.commit] ++ wEvs ++ lEvs ++ copyLoop (destsOf inp) 0 n ++
      [Ev.closeBody] ++ (List.range nSinks).map Ev.closeSink, false)

/-- Pipeline stage of an event, in source execution order. -/
def stageOf : Ev → Nat
  | Ev.director _ => 0
  | Ev.commit => 1
  | Ev.writerCall _ => 2
  | Ev.loggerCall _ => 3
  | Ev.write _ _ => 4
  | Ev.closeBody => 5
  | Ev.closeSink _ => 6

/-- Failure oracle of destination `k` in the list, `false` out of
range. -/
def destFail (dests : List (Nat → Bool)) (k j : Nat) : Bool :=
  match dests[k]? with
  | some f => f j
  | none => false

/-- Chunk `j` passes through the whole multi-writer without any
destination erroring. -/
def chunkOk (dests : List (Nat → Bool)) (j : Nat) : Prop :=
  ∀ k < dests.length, destFail dests k j = false

instance (dests : List (Nat → Bool)) (j : Nat) : Decidable (chunkOk dests j) := by
  unfold chunkOk; infer_instance

/-! ## The `save` package (`Head`, save file lines 27-41) -/

/-- Filesystem-visible actions of the `save` helpers. -/
inductive FsEv where
  | ensureDirOf (file : String)
  | create (file : String)
  | writeHeader
  | closeFile
deriving DecidableEq

/-- The head-only writer `save.Head`: derives the `".head"` path,
ensures its directory (`proxy.Workdir(path.Dir(file))`), creates the
file, and — when the create succeeded — writes the response headers and
closes the file synchronously.  It returns `none` (a nil
`io.WriteCloser`) on both paths; `createOk` is whether `os.Create`
succeeded. -/
def Head (mimeExt : String → String) (res : Response) (createOk : Bool) :
    List FsEv × Option SinkB :=
  let file := ArchiveFile mimeExt res ++ ".head"
  ([FsEv.ensureDirOf file, FsEv.create file] ++
      (if createOk then [FsEv.writeHeader, FsEv.closeFile] else []),
    none)

/-! ## Concrete inputs used by counterexamples and witnesses -/

/-- A minimal well-formed inbound request. -/
def baseRequest : Request :=
  { method := "GET"
    url := { scheme := "", host := "example.com", path := "/" }
    proto := "HTTP/1.0"
    protoMajor := 1
    protoMinor := 0
    header := []
    body := [7]
    close := true
    host := "example.com"
    remoteAddr := "10.0.0.1:4242" }

/-- A minimal response wrapping `baseRequest`. -/
def baseResponse : Response :=
  { status := 200, header := [], request := baseRequest }

/-- The scripted exchange of the pipeline-order claim: two directors,
two writers both returning sinks, one logger, a one-chunk body, no
failures. -/
def c1Input : InterceptIn :=
  { nDirectors := 2
    writers := [some { failAt := fun _ => false }, some { failAt := fun _ => false }]
    nLoggers := 1
    clientFailAt := fun _ => false
    body := some 1 }

/-- Fan-out exchange with one sink that errors on every write and a
two-chunk body. -/
def c3Input : InterceptIn :=
  { nDirectors := 0
    writers := [some { failAt := fun _ => true }]
    nLoggers := 0
    clientFailAt := fun _ => false
    body := some 2 }

/-- Exchange with a nil upstream body, one sink-producing writer, one
logger. -/
def c4Input : InterceptIn :=
  { nDirectors := 0
    writers := [some { failAt := fun _ => false }]
    nLoggers := 1
    clientFailAt := fun _ => false
    body := none }

/-- A transport whose round trip fails at the transport level
(connection refused). -/
def failingTransport : Request → Except String Response :=
  fun _ => Except.error "dial tcp 203.0.113.9:80: connection refused"

/-- A response whose URL path stem has no extension, with no
Content-Type and no Content-Encoding header. -/
def c5Response : Response :=
  { status := 200
    header := []
    request := { baseRequest with url := { scheme := "", host := "example.com", path := "/data" } } }

/-- Response reaching `ClientFile` from an IPv6 client. -/
def c7Response : Response :=
  { status := 200
    header := []
    request := { baseRequest with remoteAddr := "[::1]:8080" } }

/-- Midnight, January 1st 2024. -/
def c7t0 : Tm := ⟨2024, 1, 1, 0, 0, 0, 0⟩

/-- An instant and the instant one nanosecond later. -/
def c7tA : Tm := ⟨2024, 5, 6, 7, 8, 9, 10⟩

/-- One nanosecond after `c7tA`. -/
def c7tB : Tm := ⟨2024, 5, 6, 7, 8, 9, 11⟩

end Hyperfox

namespace Hyperfox

/-- Extra concrete response for the determinism witness: same target URL
and headers as `baseResponse`, different client, status and body. -/
def c6AltResponse : Response :=
  { status := 404
    header := []
    request := { baseRequest with remoteAddr := "192.0.2.7:1234", body := [1, 2, 3] } }

/-- C2: the claim says a failed upstream round trip is reported to the
client as an error response and only that exchange ends.  The code
instead executes `panic(err)` (main.go line 143): on a transport-level
failure the handler panics and no response is written for the exchange.
This theorem evaluates the engine at such a failing input. -/
theorem c2_transport_error_panics :
    ServeHTTP failingTransport baseRequest = ServeResult.panicked := rfl

/-- C9: the head-only writer returns a nil sink on both paths — after a
successful synchronous create/write/close as well as after a failed
create — so its return value never distinguishes the two. -/
theorem c9_head_always_nil_sink (mimeExt : String → String) (res : Response) :
    (Head mimeExt res true).2 = none ∧
    (Head mimeExt res false).2 = none ∧
    (Head mimeExt res true).1 =
      [FsEv.ensureDirOf (ArchiveFile mimeExt res ++ ".head"),
       FsEv.create (ArchiveFile mimeExt res ++ ".head"),
       FsEv.writeHeader, FsEv.closeFile] ∧
    (Head mimeExt res false).1 =
      [FsEv.ensureDirOf (ArchiveFile mimeExt res ++ ".head"),
       FsEv.create (ArchiveFile mimeExt res ++ ".head")] :=
  ⟨rfl, rfl, rfl, rfl⟩

/-- C8, counterexample: the claim says the outbound headers are the
inbound headers unchanged, but line 138 of main.go adds a `Host` header:
for an inbound request with no headers the outbound request carries
one. -/
theorem c8_counterexample :
    (outboundRequest baseRequest).header ≠ baseRequest.header ∧
    (outboundRequest baseRequest).header = [("Host", ["example.com"])] := by
  decide

/-- C8, amended: the outbound request preserves method and body, forces
HTTP/1.1, clears `Close`, rewrites the URL scheme to `"http"` and the
URL host from the inbound `Host` value — and additionally appends a
`Host` header entry holding the inbound `Host` value; all other fields
are untouched. -/
theorem c8_outbound_request_fields (req : Request) :
    (outboundRequest req).method = req.method ∧
    (outboundRequest req).body = req.body ∧
    (outboundRequest req).header = headerAdd req.header "Host" req.host ∧
    (outboundRequest req).proto = "HTTP/1.1" ∧
    (outboundRequest req).protoMajor = 1 ∧
    (outboundRequest req).protoMinor = 1 ∧
    (outboundRequest req).close = false ∧
    (outboundRequest req).url.scheme = "http" ∧
    (outboundRequest req).url.host = req.host ∧
    (outboundRequest req).url.path = req.url.path ∧
    (outboundRequest req).host = req.host ∧
    (outboundRequest req).remoteAddr = req.remoteAddr :=
  ⟨rfl, rfl, rfl, rfl, rfl, rfl, rfl, rfl, rfl, rfl, rfl, rfl⟩

/-- C4: with a nil upstream body the interceptor still calls its writers
and loggers and skips the copy, but the unguarded `res.Body.Close()` on
main.go line 257 then dereferences a nil interface: the interceptor
panics and the collected sink is never closed, contradicting the
claimed close-exactly-once / no-fault invariant. -/
theorem c4_nil_body_panics_before_close :
    (intercept c4Input).2 = true ∧
    Ev.closeSink 0 ∉ (intercept c4Input).1 ∧
    Ev.closeBody ∉ (intercept c4Input).1 ∧
    Ev.writerCall 0 ∈ (intercept c4Input).1 ∧
    Ev.loggerCall 0 ∈ (intercept c4Input).1 := by
  decide

/-- C1, counterexample: for directors `[D1,D2]`, writers `[W1,W2]` and
loggers `[L1]` the observed trace runs the logger *before* the body
fan-out copy — it is not the claimed
`D1,D2,commit,W1,W2,copy,L1` order. -/
theorem c1_counterexample :
    (intercept c1Input).1 =
      [Ev.director 0, Ev.director 1, Ev.commit, Ev.writerCall 0, Ev.writerCall 1,
       Ev.loggerCall 0, Ev.write 0 0, Ev.write 1 0, Ev.write 2 0, Ev.closeBody,
       Ev.closeSink 0, Ev.closeSink 1] ∧
    (intercept c1Input).1 ≠
      [Ev.director 0, Ev.director 1, Ev.commit, Ev.writerCall 0, Ev.writerCall 1,
       Ev.write 0 0, Ev.write 1 0, Ev.write 2 0, Ev.loggerCall 0, Ev.closeBody,
       Ev.closeSink 0, Ev.closeSink 1] := by
  decide

/-- C3, counterexample: one sink that errors on its first write, a
two-chunk body.  The multi-writer aborts the whole copy: the client
(destination 0) receives chunk 0 but never chunk 1, and the sink
(destination 1) receives nothing — a single destination's failure stops
delivery of the full body to the client. -/
theorem c3_counterexample :
    (intercept c3Input).1 =
      [Ev.commit, Ev.writerCall 0, Ev.write 0 0, Ev.closeBody, Ev.closeSink 0] ∧
    Ev.write 0 1 ∉ (intercept c3Input).1 ∧
    Ev.write 1 0 ∉ (intercept c3Input).1 := by
  decide

/-- C5, counterexample: for the extensionless stem `"data"` and a MIME
lookup returning the empty string, `ArchiveFile` does not leave the stem
unchanged: it appends a bare trailing dot. -/
theorem c5_counterexample :
    ArchiveFile (fun _ => "") c5Response = "archive/example.com/data." ∧
    ArchiveFile (fun _ => "") c5Response ≠ "archive/example.com/data" := by
  decide

/-- C5, amended: when the stem has no extension and the MIME lookup
returns the empty string, the resolver appends `"."` followed by the
empty extension, so the resulting path is the stem with a bare trailing
dot (before the optional `.gz` suffix). -/
theorem c5_empty_ext_appends_dot (mimeExt : String → String) (res : Response)
    (h1 : pathExt (stemOf res) = "")
    (h2 : mimeExt (headerGet res.header "Content-Type") = "") :
    ArchiveFile mimeExt res =
      ArchiveDir ++ PS ++ res.request.url.host ++ PS ++ stemOf res ++ "." ++
        (if headerGet res.header "Content-Encoding" = "gzip" then ".gz" else "") := by
  simp only [ArchiveFile]
  rw [if_pos h1, h2]
  split <;> simp [String.append_assoc]

/-- C5, witness for the amended theorem at a concrete exchange. -/
theorem c5_empty_ext_appends_dot_witness :
    pathExt (stemOf c5Response) = "" ∧
    (fun _ : String => "") (headerGet c5Response.header "Content-Type") = "" ∧
    ArchiveFile (fun _ => "") c5Response =
      ArchiveDir ++ PS ++ c5Response.request.url.host ++ PS ++ stemOf c5Response ++ "." ++
        (if headerGet c5Response.header "Content-Encoding" = "gzip" then ".gz" else "") :=
  ⟨by decide, rfl, c5_empty_ext_appends_dot (fun _ => "") c5Response (by decide) rfl⟩

/-- C6: the archive path is a function of the target URL path and host,
the Content-Type header and the Content-Encoding header alone: two
exchanges agreeing on those four produce the same path, whatever their
client address, status, body or other fields.  It is a pure total Lean
function, so repeated calls are trivially identical and there is no
time, randomness or filesystem dependence. -/
theorem c6_archive_path_deterministic (mimeExt : String → String) (r1 r2 : Response)
    (hp : r1.request.url.path = r2.request.url.path)
    (hh : r1.request.url.host = r2.request.url.host)
    (hct : headerGet r1.header "Content-Type" = headerGet r2.header "Content-Type")
    (hce : headerGet r1.header "Content-Encoding" = headerGet r2.header "Content-Encoding") :
    ArchiveFile mimeExt r1 = ArchiveFile mimeExt r2 := by
  simp only [ArchiveFile, stemOf, hp, hh, hct, hce]

/-- C6, witness: two concrete exchanges differing in client address,
status and body but agreeing on URL and the two headers resolve to the
same archive path. -/
theorem c6_archive_path_deterministic_witness :
    baseResponse.request.url.path = c6AltResponse.request.url.path ∧
    baseResponse.request.remoteAddr ≠ c6AltResponse.request.remoteAddr ∧
    baseResponse.status ≠ c6AltResponse.status ∧
    ArchiveFile (fun _ => "bin") baseResponse = ArchiveFile (fun _ => "bin") c6AltResponse :=
  ⟨rfl, by decide, by decide,
    c6_archive_path_deterministic (fun _ => "bin") baseResponse c6AltResponse rfl rfl rfl rfl⟩

end Hyperfox

namespace Hyperfox

/-- Membership after a header delete. -/
theorem mem_headerDel {h : List (String × List String)} {k : String}
    {p : String × List String} : p ∈ headerDel h k ↔ p ∈ h ∧ p.1 ≠ k := by
  induction h with
  | nil => simp [headerDel]
  | cons q rest ih =>
    by_cases hq : q.1 = k
    · simp only [headerDel, if_pos hq, ih, List.mem_cons]
      constructor
      · exact fun ⟨hm, hne⟩ => ⟨Or.inr hm, hne⟩
      · rintro ⟨hm | hm, hne⟩
        · exact absurd (hm ▸ hq) hne
        · exact ⟨hm, hne⟩
    · simp only [headerDel, if_neg hq, List.mem_cons, ih]
      constructor
      · rintro (rfl | ⟨hm, hne⟩)
        · exact ⟨Or.inl rfl, hq⟩
        · exact ⟨Or.inr hm, hne⟩
      · rintro ⟨rfl | hm, hne⟩
        · exact Or.inl rfl
        · exact Or.inr ⟨hm, hne⟩

/-- Surviving a fold of deletes means surviving every delete. -/
theorem mem_foldl_headerDel (ks : List String) :
    ∀ (acc : List (String × List String)) {p : String × List String},
      p ∈ ks.foldl (fun a k => headerDel a k) acc → p ∈ acc ∧ p.1 ∉ ks := by
  induction ks with
  | nil => simp
  | cons k ks ih =>
    intro acc p hp
    have h1 := ih (headerDel acc k) hp
    have h2 := mem_headerDel.mp h1.1
    refine ⟨h2.1, ?_⟩
    simp only [List.mem_cons, not_or]
    exact ⟨h2.2, h1.2⟩

/-- The first loop of `copyHeader` empties the destination map: deleting
every key of `dst` from `dst` leaves nothing. -/
theorem delAll_eq_nil (dst : List (String × List String)) : delAll dst = [] := by
  rw [List.eq_nil_iff_forall_not_mem]
  intro p hp
  have h := mem_foldl_headerDel (dst.map Prod.fst) dst hp
  exact h.2 (List.mem_map_of_mem Prod.fst h.1)

/-- Adding under key `k` appends to the value list stored at `k`. -/
theorem headerValues_headerAdd_self (h : List (String × List String)) (k v : String) :
    headerValues (headerAdd h k v) k = headerValues h k ++ [v] := by
  induction h with
  | nil => simp [headerAdd, headerValues]
  | cons q rest ih =>
    by_cases hq : q.1 = k
    · simp [headerAdd, headerValues, hq]
    · simp [headerAdd, headerValues, hq, ih]

/-- Adding under a different key leaves a key's value list unchanged. -/
theorem headerValues_headerAdd_ne (h : List (String × List String)) {kAdd k : String}
    (hne : kAdd ≠ k) (v : String) :
    headerValues (headerAdd h kAdd v) k = headerValues h k := by
  induction h with
  | nil => simp [headerAdd, headerValues, hne]
  | cons q rest ih =>
    by_cases hq : q.1 = kAdd
    · simp [headerAdd, headerValues, hq, hne, ih]
    · simp only [headerAdd, if_neg hq, headerValues]
      by_cases hk : q.1 = k
      · simp [hk]
      · simp [hk, ih]

/-- Folding the adds of one source entry appends its whole value list. -/
theorem headerValues_foldl_add_self (vs : List String) :
    ∀ (acc : List (String × List String)) (key : String),
      headerValues (vs.foldl (fun b v => headerAdd b key v) acc) key =
        headerValues acc key ++ vs := by
  induction vs with
  | nil => simp
  | cons v vs ih =>
    intro acc key
    simp only [List.foldl_cons, ih, headerValues_headerAdd_self, List.append_assoc,
      List.singleton_append]

/-- Folding the adds of one source entry leaves other keys unchanged. -/
theorem headerValues_foldl_add_ne (vs : List String) :
    ∀ (acc : List (String × List String)) {key k : String}, key ≠ k →
      headerValues (vs.foldl (fun b v => headerAdd b key v) acc) k =
        headerValues acc k := by
  induction vs with
  | nil => simp
  | cons v vs ih =>
    intro acc key k hne
    simp only [List.foldl_cons, ih _ hne, headerValues_headerAdd_ne _ hne]

/-- A key absent from the association list stores no values. -/
theorem headerValues_eq_nil_of_not_mem {h : List (String × List String)} {k : String}
    (hk : k ∉ h.map Prod.fst) : headerValues h k = [] := by
  induction h with
  | nil => rfl
  | cons q rest ih =>
    simp only [List.map_cons, List.mem_cons, not_or] at hk
    simp only [headerValues]
    rw [if_neg fun hq => hk.1 hq.symm]
    exact ih hk.2

/-- Effect of the whole add loop on one key: keys of the source receive
exactly the source's value list appended to whatever the accumulator
already stored; other keys are untouched. -/
theorem headerValues_addAll (src : List (String × List String))
    (hnd : (src.map Prod.fst).Nodup) :
    ∀ (acc : List (String × List String)) (k : String),
      headerValues (addAll acc src) k =
        if k ∈ src.map Prod.fst then headerValues acc k ++ headerValues src k
        else headerValues acc k := by
  induction src with
  | nil => simp [addAll]
  | cons p rest ih =>
    simp only [List.map_cons, List.nodup_cons] at hnd
    intro acc k
    have hstep : addAll acc (p :: rest) =
        addAll (p.2.foldl (fun b v => headerAdd b p.1 v) acc) rest := rfl
    rw [hstep, ih hnd.2]
    by_cases hk : k = p.1
    · subst hk
      rw [if_neg hnd.1, headerValues_foldl_add_self,
        if_pos (show p.1 ∈ (p :: rest).map Prod.fst by simp)]
      simp [headerValues]
    · rw [headerValues_foldl_add_ne _ _ fun h => hk h.symm]
      simp only [List.map_cons, List.mem_cons, headerValues]
      simp only [if_neg (show ¬p.1 = k from fun h => hk h.symm)]
      by_cases hmem : k ∈ rest.map Prod.fst
      · rw [if_pos hmem, if_pos (Or.inr hmem)]
      · rw [if_neg hmem, if_neg (by rintro (h | h) <;> [exact hk h; exact hmem h])]

/-- Keys produced by a single add. -/
theorem mem_headerAdd {h : List (String × List String)} {k v : String}
    {p : String × List String} (hp : p ∈ headerAdd h k v) : p ∈ h ∨ p.1 = k := by
  induction h with
  | nil => simp [headerAdd] at hp; simp [hp]
  | cons q rest ih =>
    by_cases hq : q.1 = k
    · simp only [headerAdd, if_pos hq, List.mem_cons] at hp
      rcases hp with rfl | hp
      · exact Or.inr hq
      · exact Or.inl (List.mem_cons_of_mem _ hp)
    · simp only [headerAdd, if_neg hq, List.mem_cons] at hp
      rcases hp with rfl | hp
      · exact Or.inl (List.mem_cons_self _ _)
      · rcases ih hp with h1 | h1
        · exact Or.inl (List.mem_cons_of_mem _ h1)
        · exact Or.inr h1

/-- Keys produced by the add loop of one source entry. -/
theorem mem_foldl_add {vs : List String} :
    ∀ {acc : List (String × List String)} {key : String} {p : String × List String},
      p ∈ vs.foldl (fun b v => headerAdd b key v) acc → p ∈ acc ∨ p.1 = key := by
  induction vs with
  | nil => exact fun hp => Or.inl hp
  | cons v vs ih =>
    intro acc key p hp
    rcases ih hp with h1 | h1
    · rcases mem_headerAdd h1 with h2 | h2
      · exact Or.inl h2
      · exact Or.inr h2
    · exact Or.inr h1

/-- Every entry of the add loop's result stems from the accumulator or
from a source key. -/
theorem mem_addAll {src : List (String × List String)} :
    ∀ {acc : List (String × List String)} {p : String × List String},
      p ∈ addAll acc src → p ∈ acc ∨ p.1 ∈ src.map Prod.fst := by
  induction src with
  | nil => exact fun hp => Or.inl hp
  | cons q rest ih =>
    intro acc p hp
    have hstep : addAll acc (q :: rest) =
        addAll (q.2.foldl (fun b v => headerAdd b q.1 v) acc) rest := rfl
    rw [hstep] at hp
    rcases ih hp with h1 | h1
    · rcases mem_foldl_add h1 with h2 | h2
      · exact Or.inl h2
      · exact Or.inr (by simp [h2])
    · exact Or.inr (by simp [h1])

/-- C10: after `copyHeader dst src` the destination holds exactly the
source's entries — every key stores the source's ordered value list
(`[]` for keys the source does not mention, so every pre-existing
destination key is gone), and no key outside the source's key set
occurs.  The `Nodup` hypothesis is the Go map invariant on `src`. -/
theorem c10_copyHeader_replaces (dst src : List (String × List String))
    (hnd : (src.map Prod.fst).Nodup) :
    (∀ k, headerValues (copyHeader dst src) k = headerValues src k) ∧
    (∀ p ∈ copyHeader dst src, p.1 ∈ src.map Prod.fst) := by
  constructor
  · intro k
    rw [copyHeader, delAll_eq_nil, headerValues_addAll src hnd]
    by_cases hk : k ∈ src.map Prod.fst
    · simp [hk, headerValues]
    · simp [hk, headerValues, headerValues_eq_nil_of_not_mem hk]
  · intro p hp
    rw [copyHeader, delAll_eq_nil] at hp
    rcases mem_addAll hp with h1 | h1
    · cases h1
    · exact h1

/-- C10, witness at concrete headers: a stale destination key vanishes
and a source key keeps its ordered two-value list. -/
theorem c10_copyHeader_replaces_witness :
    (([("A", ["x", "y"]), ("B", ["z"])].map Prod.fst).Nodup ∧
      headerValues (copyHeader [("Old", ["1"]), ("B", ["stale"])]
        [("A", ["x", "y"]), ("B", ["z"])]) "A" = ["x", "y"]) ∧
    headerValues (copyHeader [("Old", ["1"]), ("B", ["stale"])]
      [("A", ["x", "y"]), ("B", ["z"])]) "Old" = [] :=
  ⟨⟨by decide,
    (c10_copyHeader_replaces [("Old", ["1"]), ("B", ["stale"])]
      [("A", ["x", "y"]), ("B", ["z"])] (by decide)).1 "A"⟩,
   (c10_copyHeader_replaces [("Old", ["1"]), ("B", ["stale"])]
      [("A", ["x", "y"]), ("B", ["z"])] (by decide)).1 "Old"⟩

end Hyperfox

namespace Hyperfox

/-- Every event the multi-writer emits is a body write. -/
theorem wcGo_stage (j : Nat) :
    ∀ (fs : List (Nat → Bool)) (k0 : Nat), ∀ e ∈ (wcGo j k0 fs).1, stageOf e = 4 := by
  intro fs
  induction fs with
  | nil => intro k0 e he; cases he
  | cons f fs ih =>
    intro k0 e he
    by_cases hf : f j
    · simp [wcGo, hf] at he
    · simp only [wcGo, hf, if_neg Bool.false_ne_true] at he
      rcases List.mem_cons.mp he with rfl | he
      · rfl
      · exact ih (k0 + 1) e he

/-- Every event the copy loop emits is a body write. -/
theorem copyLoop_stage (dests : List (Nat → Bool)) :
    ∀ (r j : Nat), ∀ e ∈ copyLoop dests j r, stageOf e = 4 := by
  intro r
  induction r with
  | zero => intro j e he; cases he
  | succ r ih =>
    intro j e he
    simp only [copyLoop] at he
    by_cases hw : (wcGo j 0 dests).2
    · rw [if_pos hw] at he
      rcases List.mem_append.mp he with h | h
      · exact wcGo_stage j dests 0 e h
      · exact ih (j + 1) e h
    · rw [if_neg hw] at he
      exact wcGo_stage j dests 0 e he

/-- A list whose events all sit in one stage is stage-sorted. -/
theorem pairwise_stage_of_all {l : List Ev} {c : Nat} (h : ∀ e ∈ l, stageOf e = c) :
    l.Pairwise fun a b => stageOf a ≤ stageOf b := by
  induction l with
  | nil => exact List.Pairwise.nil
  | cons x xs ih =>
    refine List.Pairwise.cons ?_ (ih fun e he => h e (List.mem_cons_of_mem _ he))
    intro e he
    rw [h x (List.mem_cons_self _ _), h e (List.mem_cons_of_mem _ he)]

/-- Prepending a constant-stage block below a stage-sorted suffix keeps
the whole list stage-sorted, and gives the block's stage as a lower
bound. -/
theorem stage_chain {l1 l2 : List Ev} {c : Nat}
    (h1 : ∀ e ∈ l1, stageOf e = c)
    (h2 : ∀ e ∈ l2, c ≤ stageOf e)
    (hp : l2.Pairwise fun a b => stageOf a ≤ stageOf b) :
    ((l1 ++ l2).Pairwise fun a b => stageOf a ≤ stageOf b) ∧
      ∀ e ∈ l1 ++ l2, c ≤ stageOf e := by
  constructor
  · refine List.pairwise_append.mpr ⟨pairwise_stage_of_all h1, hp, ?_⟩
    intro a ha b hb
    rw [h1 a ha]
    exact h2 b hb
  · intro e he
    rcases List.mem_append.mp he with h | h
    · exact (h1 e h).ge
    · exact h2 e h

/-- The interceptor's trace in closed form: directors, commit, writer
calls, logger calls, then (for a non-nil body only) the copy, the body
close and the sink closes. -/
theorem intercept_trace_shape (inp : InterceptIn) :
    (intercept inp).1 =
      (List.range inp.nDirectors).map Ev.director ++ [Ev.commit] ++
      (List.range inp.writers.length).map Ev.writerCall ++
      (List.range inp.nLoggers).map Ev.loggerCall ++
      (match inp.body with
       | none => []
       | some n =>
          copyLoop (destsOf inp) 0 n ++ [Ev.closeBody] ++
            (List.range (inp.writers.filterMap id).length).map Ev.closeSink) := by
  cases hb : inp.body <;> simp [intercept, hb]

/-- Assembling the four head segments in front of any stage-sorted tail
of stage at least 4. -/
theorem stage_pairwise_build (d c w l tail : List Ev)
    (hd : ∀ e ∈ d, stageOf e = 0) (hc : ∀ e ∈ c, stageOf e = 1)
    (hw : ∀ e ∈ w, stageOf e = 2) (hl : ∀ e ∈ l, stageOf e = 3)
    (ht : ∀ e ∈ tail, 4 ≤ stageOf e)
    (hp : tail.Pairwise fun a b => stageOf a ≤ stageOf b) :
    (d ++ c ++ w ++ l ++ tail).Pairwise fun a b => stageOf a ≤ stageOf b := by
  have t3 := stage_chain hl (fun e he => le_trans (by omega) (ht e he)) hp
  have t2 := stage_chain hw (fun e he => le_trans (by omega) (t3.2 e he)) t3.1
  have t1 := stage_chain hc (fun e he => le_trans (by omega) (t2.2 e he)) t2.1
  have t0 := stage_chain hd (fun e he => le_trans (by omega) (t1.2 e he)) t1.1
  have := t0.1
  simpa [List.append_assoc] using this

/-- C1, amended: the pipeline stage order actually implemented is
Directors, commit, Writers, Loggers, body fan-out copy, body close, sink
closes — stage categories never interleave (the trace is sorted by
stage), but the Loggers run before the body copy, not after it.  The
second conjunct exhibits the scripted exchange of the claim
(`[D1,D2]`, `[W1,W2]`, `[L1]`): its observed order is
`D1,D2,commit,W1,W2,L1,copy,closes`. -/
theorem c1_pipeline_stage_order :
    (∀ inp : InterceptIn,
      ((intercept inp).1).Pairwise fun a b => stageOf a ≤ stageOf b) ∧
    (intercept c1Input).1 =
      [Ev.director 0, Ev.director 1, Ev.commit, Ev.writerCall 0, Ev.writerCall 1,
       Ev.loggerCall 0, Ev.write 0 0, Ev.write 1 0, Ev.write 2 0, Ev.closeBody,
       Ev.closeSink 0, Ev.closeSink 1] := by
  constructor
  · intro inp
    rw [intercept_trace_shape]
    have hd : ∀ e ∈ (List.range inp.nDirectors).map Ev.director, stageOf e = 0 := by
      intro e he
      rcases List.mem_map.mp he with ⟨i, _, rfl⟩
      rfl
    have hc : ∀ e ∈ [Ev.commit], stageOf e = 1 := by
      intro e he
      rcases List.mem_singleton.mp he with rfl
      rfl
    have hw : ∀ e ∈ (List.range inp.writers.length).map Ev.writerCall, stageOf e = 2 := by
      intro e he
      rcases List.mem_map.mp he with ⟨i, _, rfl⟩
      rfl
    have hl : ∀ e ∈ (List.range inp.nLoggers).map Ev.loggerCall, stageOf e = 3 := by
      intro e he
      rcases List.mem_map.mp he with ⟨i, _, rfl⟩
      rfl
    cases hb : inp.body with
    | none =>
      refine stage_pairwise_build _ _ _ _ _ hd hc hw hl ?_ ?_
      · intro e he; cases he
      · exact List.Pairwise.nil
    | some n =>
      have hcs : ∀ e ∈ (List.range (inp.writers.filterMap id).length).map Ev.closeSink,
          stageOf e = 6 := by
        intro e he
        rcases List.mem_map.mp he with ⟨i, _, rfl⟩
        rfl
      have hcb : ∀ e ∈ [Ev.closeBody], stageOf e = 5 := by
        intro e he
        rcases List.mem_singleton.mp he with rfl
        rfl
      have hcp : ∀ e ∈ copyLoop (destsOf inp) 0 n, stageOf e = 4 :=
        fun e he => copyLoop_stage (destsOf inp) n 0 e he
      have t5 := stage_chain hcb
        (fun e he => by rw [hcs e he]; omega) (pairwise_stage_of_all hcs)
      have t4 := stage_chain hcp (fun e he => le_trans (by omega) (t5.2 e he)) t5.1
      refine stage_pairwise_build _ _ _ _ _ hd hc hw hl ?_ ?_
      · intro e he
        simpa using t4.2 e (by simpa [List.append_assoc] using he)
      · simpa [List.append_assoc] using t4.1
  · decide

end Hyperfox

namespace Hyperfox

/-- Head of the destination failure oracle. -/
theorem destFail_cons_zero (f : Nat → Bool) (fs : List (Nat → Bool)) (j : Nat) :
    destFail (f :: fs) 0 j = f j := by
  simp [destFail]

/-- Shifting the destination index past the list head. -/
theorem destFail_cons_succ (f : Nat → Bool) (fs : List (Nat → Bool)) (m j : Nat) :
    destFail (f :: fs) (m + 1) j = destFail fs m j := by
  simp [destFail]

/-- The multi-writer reports success exactly when no destination fails
on the chunk. -/
theorem wcGo_snd (j : Nat) :
    ∀ (fs : List (Nat → Bool)) (k0 : Nat),
      (wcGo j k0 fs).2 = true ↔ ∀ m < fs.length, destFail fs m j = false := by
  intro fs
  induction fs with
  | nil => intro k0; simp [wcGo]
  | cons f fs ih =>
    intro k0
    by_cases hf : f j
    · simp only [wcGo, if_pos hf]
      constructor
      · intro h; cases h
      · intro h
        have h0 := h 0 (by simp)
        rw [destFail_cons_zero, hf] at h0
        cases h0
    · simp only [wcGo, if_neg hf, ih (k0 + 1)]
      constructor
      · intro h m hm
        cases m with
        | zero =>
          rw [destFail_cons_zero]
          exact (Bool.not_eq_true _).mp hf
        | succ m =>
          rw [destFail_cons_succ]
          exact h m (by simp only [List.length_cons] at hm; omega)
      · intro h m hm
        have := h (m + 1) (by simp only [List.length_cons]; omega)
        rwa [destFail_cons_succ] at this

/-- Exactly which write events one multi-writer call emits: destination
`k` (counted from `k0`) receives chunk `j` when it exists and neither it
nor any destination before it fails on `j`. -/
theorem wcGo_mem (j i k : Nat) :
    ∀ (fs : List (Nat → Bool)) (k0 : Nat),
      Ev.write k i ∈ (wcGo j k0 fs).1 ↔
        (i = j ∧ k0 ≤ k ∧ k - k0 < fs.length ∧
          ∀ m ≤ k - k0, destFail fs m j = false) := by
  intro fs
  induction fs with
  | nil =>
    intro k0
    simp [wcGo]
  | cons f fs ih =>
    intro k0
    by_cases hf : f j
    · simp only [wcGo, if_pos hf]
      constructor
      · intro h; cases h
      · rintro ⟨-, -, -, hall⟩
        have h0 := hall 0 (by omega)
        rw [destFail_cons_zero, hf] at h0
        cases h0
    · simp only [wcGo, if_neg hf]
      constructor
      · intro h
        rcases List.mem_cons.mp h with heq | hmem
        · have hki : k = k0 ∧ i = j := by
            simpa [Ev.write.injEq] using heq
          obtain ⟨rfl, rfl⟩ := hki
          refine ⟨rfl, le_refl _, ?_, ?_⟩
          · simp only [Nat.sub_self, List.length_cons]
            omega
          · intro m hm
            have hm0 : m = 0 := by omega
            subst hm0
            rw [destFail_cons_zero]
            exact (Bool.not_eq_true _).mp hf
        · obtain ⟨hij, hk, hlen, hall⟩ := (ih (k0 + 1)).mp hmem
          refine ⟨hij, by omega, ?_, ?_⟩
          · simp only [List.length_cons]
            omega
          · intro m hm
            cases m with
            | zero =>
              rw [destFail_cons_zero]
              exact (Bool.not_eq_true _).mp hf
            | succ m =>
              rw [destFail_cons_succ]
              exact hall m (by omega)
      · rintro ⟨rfl, hk, hlen, hall⟩
        simp only [List.length_cons] at hlen
        by_cases hkk : k = k0
        · subst hkk
          exact List.mem_cons_self _ _
        · refine List.mem_cons_of_mem _ ((ih (k0 + 1)).mpr ⟨rfl, by omega, by omega, ?_⟩)
          intro m hm
          have := hall (m + 1) (by omega)
          rwa [destFail_cons_succ] at this

/-- Chunk success is the multi-writer's success flag. -/
theorem chunkOk_iff_wcGo (dests : List (Nat → Bool)) (j : Nat) :
    chunkOk dests j ↔ (wcGo j 0 dests).2 = true :=
  (wcGo_snd j dests 0).symm

/-- Exactly which write events the copy loop emits, starting at chunk
`j0` with `r` chunks left: destination `k` receives chunk `i` when the
copy reaches chunk `i` (no earlier chunk had any failing destination)
and no destination at or before `k` fails on chunk `i`. -/
theorem copyLoop_mem (dests : List (Nat → Bool)) (k i : Nat) :
    ∀ (r j0 : Nat),
      Ev.write k i ∈ copyLoop dests j0 r ↔
        (j0 ≤ i ∧ i < j0 + r ∧ (∀ j, j0 ≤ j → j < i → chunkOk dests j) ∧
          k < dests.length ∧ ∀ m ≤ k, destFail dests m i = false) := by
  intro r
  induction r with
  | zero =>
    intro j0
    simp only [copyLoop, List.not_mem_nil, false_iff]
    rintro ⟨h1, h2, -⟩
    omega
  | succ r ih =>
    intro j0
    by_cases hok : (wcGo j0 0 dests).2 = true
    · simp only [copyLoop, if_pos hok, List.mem_append]
      rw [wcGo_mem j0 i k dests 0, ih (j0 + 1)]
      constructor
      · rintro (⟨rfl, -, hlen, hall⟩ | ⟨hle, hlt, hprev, hlen, hall⟩)
        · refine ⟨le_refl _, by omega, ?_, by simpa using hlen, by simpa using hall⟩
          intro j hj1 hj2
          omega
        · refine ⟨by omega, by omega, ?_, hlen, hall⟩
          intro j hj1 hj2
          rcases Nat.eq_or_lt_of_le hj1 with heq | hj
          · subst heq
            exact (chunkOk_iff_wcGo dests j0).mpr hok
          · exact hprev j (by omega) hj2
      · rintro ⟨hle, hlt, hprev, hlen, hall⟩
        rcases Nat.eq_or_lt_of_le hle with heq | hgt
        · subst heq
          exact Or.inl ⟨rfl, by omega, by simpa using hlen, by simpa using hall⟩
        · exact Or.inr ⟨by omega, by omega, fun j hj1 hj2 => hprev j (by omega) hj2,
            hlen, hall⟩
    · simp only [copyLoop, if_neg hok]
      rw [wcGo_mem j0 i k dests 0]
      constructor
      · rintro ⟨rfl, -, hlen, hall⟩
        refine ⟨le_refl _, by omega, ?_, by simpa using hlen, by simpa using hall⟩
        intro j hj1 hj2
        omega
      · rintro ⟨hle, hlt, hprev, hlen, hall⟩
        rcases Nat.eq_or_lt_of_le hle with heq | hgt
        · subst heq
          exact ⟨rfl, by omega, by simpa using hlen, by simpa using hall⟩
        · exact absurd ((chunkOk_iff_wcGo dests j0).mp (hprev j0 (le_refl _) hgt)) hok

/-- C3, amended: a destination write failure stops the whole fan-out
copy rather than only that destination.  For an exchange with body
chunks `0..n-1`, destination `k` (the client is destination `0`, sinks
follow in order) receives chunk `i` exactly when every earlier chunk
passed every destination without failure and no destination at or
before `k` fails on chunk `i`; in particular, after the first failing
write no destination — the client included — receives any further
chunk. -/
theorem c3_write_reaches_iff (inp : InterceptIn) (n : Nat) (hb : inp.body = some n)
    (k i : Nat) :
    Ev.write k i ∈ (intercept inp).1 ↔
      (i < n ∧ (∀ j < i, chunkOk (destsOf inp) j) ∧ k < (destsOf inp).length ∧
        ∀ m ≤ k, destFail (destsOf inp) m i = false) := by
  rw [intercept_trace_shape, hb]
  constructor
  · intro h
    simp only [List.mem_append, or_assoc] at h
    rcases h with h | h | h | h | h
    · simp at h
    · simp at h
    · simp at h
    · simp at h
    · rcases h with h | h | h
      · obtain ⟨-, hlt, hprev, hlen, hall⟩ := (copyLoop_mem (destsOf inp) k i n 0).mp h
        exact ⟨by omega, fun j hj => hprev j (by omega) hj, hlen, hall⟩
      · simp at h
      · simp at h
  · rintro ⟨hlt, hprev, hlen, hall⟩
    have hm : Ev.write k i ∈ copyLoop (destsOf inp) 0 n :=
      (copyLoop_mem (destsOf inp) k i n 0).mpr
        ⟨by omega, by omega, fun j _ hj => hprev j hj, hlen, hall⟩
    simp only [List.mem_append, or_assoc]
    exact Or.inr (Or.inr (Or.inr (Or.inr (Or.inl hm))))

/-- C3, witness at the concrete failing exchange: the client receives
chunk 0 but, because the sink's failure aborted the copy, not chunk 1. -/
theorem c3_write_reaches_iff_witness :
    c3Input.body = some 2 ∧
    Ev.write 0 0 ∈ (intercept c3Input).1 ∧
    Ev.write 0 1 ∉ (intercept c3Input).1 :=
  ⟨rfl,
   (c3_write_reaches_iff c3Input 2 rfl 0 0).mpr (by decide),
   fun h => absurd ((c3_write_reaches_iff c3Input 2 rfl 0 1).mp h) (by decide)⟩

end Hyperfox

namespace Hyperfox

/-- Nothing is lexicographically below the empty character list. -/
theorem charList_not_lt_nil (l : List Char) : ¬l < ([] : List Char) := by
  intro h
  cases h

/-- Head/tail characterization of the core lexicographic order on
character lists. -/
theorem charList_cons_lt_iff (x y : Char) (xs ys : List Char) :
    (x :: xs < y :: ys) ↔ (x < y ∨ (x = y ∧ xs < ys)) := by
  constructor
  · intro h
    cases h with
    | cons h => exact Or.inr ⟨rfl, h⟩
    | rel h => exact Or.inl h
  · rintro (h | ⟨rfl, h⟩)
    · exact List.Lex.rel h
    · exact List.Lex.cons h

/-- Lexicographic comparison of two concatenations whose first parts
have equal length: compare the first parts, then the second. -/
theorem charList_append_lt_iff (a1 : List Char) :
    ∀ (a2 b1 b2 : List Char), a1.length = a2.length →
      ((a1 ++ b1 < a2 ++ b2) ↔ (a1 < a2 ∨ (a1 = a2 ∧ b1 < b2))) := by
  induction a1 with
  | nil =>
    intro a2 b1 b2 h
    cases a2 with
    | nil => simp [charList_not_lt_nil]
    | cons y ys => simp at h
  | cons x xs ih =>
    intro a2 b1 b2 h
    cases a2 with
    | nil => simp at h
    | cons y ys =>
      simp only [List.cons_append]
      rw [charList_cons_lt_iff, charList_cons_lt_iff, ih ys b1 b2 (by simpa using h)]
      simp only [List.cons.injEq]
      tauto

/-- A padded field always has its nominal width. -/
theorem pad_length : ∀ (w n : Nat), (pad w n).length = w := by
  intro w
  induction w with
  | zero => intro n; rfl
  | succ w ih => intro n; simp [pad, ih]

/-- Digit characters compare like the digits they render. -/
theorem digitCh_lt_iff {d1 d2 : Nat} (h1 : d1 < 10) (h2 : d2 < 10) :
    digitCh d1 < digitCh d2 ↔ d1 < d2 := by
  interval_cases d1 <;> interval_cases d2 <;> decide

/-- Digit characters are injective on actual digits. -/
theorem digitCh_inj {d1 d2 : Nat} (h1 : d1 < 10) (h2 : d2 < 10) :
    digitCh d1 = digitCh d2 ↔ d1 = d2 := by
  interval_cases d1 <;> interval_cases d2 <;> decide

/-- Padded renderings of in-range values are equal exactly when the
values are. -/
theorem pad_eq_iff : ∀ (w : Nat) {n1 n2 : Nat}, n1 < 10 ^ w → n2 < 10 ^ w →
    ((pad w n1 = pad w n2) ↔ n1 = n2) := by
  intro w
  induction w with
  | zero =>
    intro n1 n2 h1 h2
    rw [pow_zero] at h1 h2
    have e1 : n1 = 0 := by omega
    have e2 : n2 = 0 := by omega
    subst e1; subst e2
    simp
  | succ w ih =>
    intro n1 n2 h1 h2
    rw [pow_succ] at h1 h2
    have hd1 : n1 / 10 < 10 ^ w := (Nat.div_lt_iff_lt_mul (by norm_num)).mpr h1
    have hd2 : n2 / 10 < 10 ^ w := (Nat.div_lt_iff_lt_mul (by norm_num)).mpr h2
    simp only [pad]
    constructor
    · intro h
      obtain ⟨ha, hb⟩ := List.append_inj h (by simp [pad_length])
      have e1 : n1 / 10 = n2 / 10 := (ih hd1 hd2).mp ha
      have e2 : n1 % 10 = n2 % 10 := by
        have hb2 : digitCh (n1 % 10) = digitCh (n2 % 10) := by
          simpa using hb
        exact (digitCh_inj (Nat.mod_lt _ (by norm_num)) (Nat.mod_lt _ (by norm_num))).mp hb2
      omega
    · rintro rfl
      rfl

/-- Singleton character lists compare like their characters. -/
theorem charList_singleton_lt_iff (a b : Char) : ([a] < [b]) ↔ a < b := by
  rw [charList_cons_lt_iff]
  simp [charList_not_lt_nil]

/-- Padded renderings of in-range values compare lexicographically like
the values. -/
theorem pad_lt_iff : ∀ (w : Nat) {n1 n2 : Nat}, n1 < 10 ^ w → n2 < 10 ^ w →
    ((pad w n1 < pad w n2) ↔ n1 < n2) := by
  intro w
  induction w with
  | zero =>
    intro n1 n2 h1 h2
    rw [pow_zero] at h1 h2
    simp only [pad]
    constructor
    · intro h; cases h
    · omega
  | succ w ih =>
    intro n1 n2 h1 h2
    rw [pow_succ] at h1 h2
    have hd1 : n1 / 10 < 10 ^ w := (Nat.div_lt_iff_lt_mul (by norm_num)).mpr h1
    have hd2 : n2 / 10 < 10 ^ w := (Nat.div_lt_iff_lt_mul (by norm_num)).mpr h2
    simp only [pad]
    rw [charList_append_lt_iff _ _ _ _ (by simp [pad_length]), ih hd1 hd2,
      pad_eq_iff w hd1 hd2, charList_singleton_lt_iff,
      digitCh_lt_iff (Nat.mod_lt _ (by norm_num)) (Nat.mod_lt _ (by norm_num))]
    omega

/-- One fixed-width numeric field followed by a rest: compare the field,
then the rest. -/
theorem seg_lt_iff (w n1 n2 : Nat) (r1 r2 : List Char)
    (h1 : n1 < 10 ^ w) (h2 : n2 < 10 ^ w) :
    (pad w n1 ++ r1 < pad w n2 ++ r2) ↔ (n1 < n2 ∨ (n1 = n2 ∧ r1 < r2)) := by
  rw [charList_append_lt_iff _ _ _ _ (by simp [pad_length]), pad_lt_iff w h1 h2,
    pad_eq_iff w h1 h2]

/-- An identical separator character passes comparison through. -/
theorem cons_same_lt_iff (c : Char) (r1 r2 : List Char) :
    (c :: r1 < c :: r2) ↔ r1 < r2 := by
  rw [charList_cons_lt_iff]
  simp [lt_irrefl]

/-- The final field before an identical literal suffix: compare the
field alone. -/
theorem tail_seg_lt_iff (w n1 n2 : Nat) (b : List Char)
    (h1 : n1 < 10 ^ w) (h2 : n2 < 10 ^ w) :
    (pad w n1 ++ b < pad w n2 ++ b) ↔ n1 < n2 := by
  rw [seg_lt_iff w n1 n2 b b h1 h2]
  have hb : ¬b < b := lt_irrefl b
  simp [hb]

/-- The rendered timestamps of two valid instants compare
lexicographically exactly as the instants compare chronologically. -/
theorem tsList_lt_iff (t1 t2 : Tm) (v1 : t1.Valid) (v2 : t2.Valid) :
    tsList t1 < tsList t2 ↔ chronoLt t1 t2 := by
  obtain ⟨hy1, hmo1, hmo1b, hd1, hd1b, hh1, hmi1, hs1, hn1⟩ := v1
  obtain ⟨hy2, hmo2, hmo2b, hd2, hd2b, hh2, hmi2, hs2, hn2⟩ := v2
  have e4 : (10 : Nat) ^ 4 = 10000 := by norm_num
  have e2 : (10 : Nat) ^ 2 = 100 := by norm_num
  have e9 : (10 : Nat) ^ 9 = 1000000000 := by norm_num
  unfold tsList
  rw [seg_lt_iff 4 _ _ _ _ (by omega) (by omega),
    seg_lt_iff 2 _ _ _ _ (by omega) (by omega),
    seg_lt_iff 2 _ _ _ _ (by omega) (by omega),
    cons_same_lt_iff,
    seg_lt_iff 2 _ _ _ _ (by omega) (by omega),
    seg_lt_iff 2 _ _ _ _ (by omega) (by omega),
    seg_lt_iff 2 _ _ _ _ (by omega) (by omega),
    cons_same_lt_iff,
    tail_seg_lt_iff 9 _ _ _ (by omega) (by omega)]
  exact Iff.rfl

/-- C7, amended: the client path has the layout
`client/<prefix>/<host>/<stem>/<timestamp>.bin`, where `<prefix>` is the
part of the remote address before its first colon — for an IPv4
`host:port` address this is the host with the port stripped, but for a
bracketed IPv6 address it is not the host portion — and the timestamp
leaf is fixed-width (29 characters) zero-padded
year/month/day-hour/minute/second-nanosecond, so that for valid
instants lexicographic order of leaf names coincides with chronological
order. -/
theorem c7_client_path_layout :
    (∀ (res : Response) (t : Tm),
      ClientFile res t =
        ClientDir ++ PS ++ beforeColon res.request.remoteAddr ++ PS ++
          res.request.url.host ++ PS ++ stemOf res ++ PS ++ nowStr t) ∧
    (∀ t : Tm, (nowStr t).length = 29) ∧
    (∀ t1 t2 : Tm, t1.Valid → t2.Valid →
      (nowStr t1 < nowStr t2 ↔ chronoLt t1 t2)) := by
  refine ⟨fun res t => rfl, fun t => ?_, fun t1 t2 v1 v2 => ?_⟩
  · show (String.mk (tsList t)).length = 29
    simp [String.length, tsList, pad_length]
  · exact String.lt_iff_toList_lt.trans (tsList_lt_iff t1 t2 v1 v2)

/-- C7, witness: one nanosecond apart, the rendered leaf names order the
same way as the instants. -/
theorem c7_client_path_layout_witness :
    Tm.Valid c7tA ∧ Tm.Valid c7tB ∧ nowStr c7tA < nowStr c7tB :=
  ⟨by decide, by decide,
    (c7_client_path_layout.2.2 c7tA c7tB (by decide) (by decide)).mpr (by decide)⟩

/-- C7, counterexample: for the IPv6 remote address `"[::1]:8080"` the
code's split at the first colon yields `"["`, not the host portion
`"::1"`, so the claimed client-IP path component is wrong for IPv6
addresses. -/
theorem c7_counterexample :
    beforeColon "[::1]:8080" = "[" ∧
    ClientFile c7Response c7t0 =
      "client/[/example.com/index/20240101-000000-000000000.bin" ∧
    ClientFile c7Response c7t0 ≠
      "client/::1/example.com/index/20240101-000000-000000000.bin" := by
  decide

end Hyperfox
